import Mathlib

/-!
Shallow embedding of the `ast` package of the lambda compiler
(`ast/lambda.go`): AST nodes, the free-variable slicing compiler
`CompileFree`, the single-term entry point `CompileSingle` and the
global batch compiler `CompileAll`.

The `machine` package is an external collaborator (its source is not part
of this repository's core); its types are modelled from the spec:
`FreeExpr` mirrors the four constructors used by the compiler
(`FreeVar`, `FreeAbst`, `FreeAppl`, `FreeRef`), each carrying the opaque
annotation.  A global slot cell (`*machine.Expr` in Go) is modelled by the
index of the slot in the batch's compiled array; the `FreeRef` produced
for a `Global` node carries that cell identifier, not the cell's contents.
Go's `nil` slices become `[]`, Go maps become association lists (the Go
maps involved have unique keys), and the `(result, error)` return pairs
become `Except`.  The opaque annotation (`Meta interface{}`) is a type
parameter `α`.
-/

/-- Modelled from the spec: the intermediate-expression type of the external
execution engine, as used by the compiler.  The compiler only constructs
these four shapes (`machine.FreeVar`, `machine.FreeAbst`, `machine.FreeAppl`,
`machine.FreeRef`); a `FreeRef` carries the identifier of a global slot cell
(the Go code stores a `*machine.Expr` pointing into the batch's `compiled`
array; we identify the cell by its index in that array). -/
inductive FreeExpr (α : Type) where
  | FreeVar : α → FreeExpr α
  | FreeAbst : Bool → FreeExpr α → α → FreeExpr α
  | FreeAppl : Nat → Nat → FreeExpr α → FreeExpr α → α → FreeExpr α
  | FreeRef : Nat → α → FreeExpr α
  deriving Repr, DecidableEq

/-- Modelled from the spec: the executable-expression type of the external
execution engine.  `instantiate` pairs an intermediate expression with the
runtime environment vector it is instantiated against; the compiler never
looks inside it. -/
inductive Expr (α : Type) where
  | inst : FreeExpr α → List (Expr α) → Expr α
  deriving Repr

/-- Modelled from the spec: `machine.FreeExpr.Fill(env)` instantiates an
intermediate expression against a concrete runtime environment, producing
an executable expression.  Resolution of global slot cells is deferred to
execution time, so `Fill` does not dereference any slot cell. -/
def FreeExpr.Fill (e : FreeExpr α) (env : List (Expr α)) : Expr α :=
  .inst e env

/-- AST node (`ast.Node` and its five implementations).  Every variant
carries the opaque annotation `Meta`. -/
inductive Node (α : Type) where
  | Const : FreeExpr α → α → Node α
  | Var : String → α → Node α
  | Abst : String → Node α → α → Node α
  | Appl : Node α → Node α → α → Node α
  | Global : String → α → Node α
  deriving Repr, DecidableEq

/-- `MetaInfo()` of each node variant: returns the opaque annotation. -/
def Node.MetaInfo : Node α → α
  | .Const _ m => m
  | .Var _ m => m
  | .Abst _ _ m => m
  | .Appl _ _ m => m
  | .Global _ m => m

/-- `HasFree(name)` of each node variant (`referencesFree` in the spec). -/
def Node.HasFree : Node α → String → Bool
  | .Const _ _, _ => false
  | .Var v _, name => name == v
  | .Abst b body _, name => name != b && body.HasFree name
  | .Appl l r _, name => l.HasFree name || r.HasFree name
  | .Global _ _, _ => false

/-- `ast.CompileError`: carries the offending node and a message. -/
structure CompileError (α : Type) where
  node : Node α
  msg : String
  deriving Repr, DecidableEq

/-- Lookup in the global slot table (`globals[g.Name]` on the Go map
`map[string]*machine.Expr`; the table is modelled as an association list
with unique keys, a cell being identified by its slot index). -/
def lookupPtr : List (String × Nat) → String → Option Nat
  | [], _ => none
  | (k, v) :: rest, n => if k == n then some v else lookupPtr rest n

/-- The trim loop at the start of `Appl.CompileFree`:
`for _, name := range free { if sub.HasFree(name) { break }; drop++ }`. -/
def dropCount (t : Node α) : List String → Nat
  | [] => 0
  | name :: rest => if t.HasFree name then 0 else dropCount t rest + 1

/-- `CompileFree` of each node variant: compiles a node against the global
slot table and the ordered list of in-scope free names. -/
def Node.CompileFree :
    Node α → List (String × Nat) → List String →
      Except (CompileError α) (FreeExpr α)
  | .Const v _, _, _ => .ok v
  | .Var n m, _, [] => .error ⟨.Var n m, "'" ++ n ++ "' not defined"⟩
  | .Var n m, _, f :: _ =>
      if f != n then .error ⟨.Var n m, "'" ++ n ++ "' not defined"⟩
      else .ok (.FreeVar m)
  | .Abst b body m, globals, free =>
      if !body.HasFree b then
        match body.CompileFree globals free with
        | .error e => .error e
        | .ok bodyc => .ok (.FreeAbst false bodyc m)
      else
        match body.CompileFree globals (b :: free) with
        | .error e => .error e
        | .ok bodyc => .ok (.FreeAbst true bodyc m)
  | .Appl l r m, globals, free =>
      match l.CompileFree globals (free.drop (dropCount l free)) with
      | .error e => .error e
      | .ok left =>
          match r.CompileFree globals (free.drop (dropCount r free)) with
          | .error e => .error e
          | .ok right =>
              .ok (.FreeAppl (dropCount l free) (dropCount r free)
                    left right m)
  | .Global n m, globals, _ =>
      match lookupPtr globals n with
      | none => .error ⟨.Global n m, "'" ++ n ++ "' not defined"⟩
      | some cell => .ok (.FreeRef cell m)

/-- `ast.CompileSingle`: compile one term with no globals and empty free
environment, then instantiate immediately. -/
def CompileSingle (t : Node α) : Except (CompileError α) (Expr α) :=
  match t.CompileFree [] [] with
  | .error e => .error e
  | .ok free => .ok (free.Fill [])

/-- The slot-table construction of `ast.CompileAll`:
`for i, name := range globalNames { compiledPtrs[name] = &compiled[i] }`,
a cell being identified by its index. -/
def mkPtrsAux : List String → Nat → List (String × Nat)
  | [], _ => []
  | n :: rest, i => (n, i) :: mkPtrsAux rest (i + 1)

/-- The full slot table for a list of global names. -/
def mkPtrs (names : List String) : List (String × Nat) :=
  mkPtrsAux names 0

/-- The compile-and-fill loop of `ast.CompileAll`: compiles each global's
term against the full slot table and an empty free environment, aborting
on the first error. -/
def compileLoop (ptrs : List (String × Nat)) :
    List (String × Node α) → Except (CompileError α) (List (Expr α))
  | [] => .ok []
  | (_, node) :: rest =>
      match node.CompileFree ptrs [] with
      | .error e => .error e
      | .ok cf =>
          match compileLoop ptrs rest with
          | .error e => .error e
          | .ok es => .ok (cf.Fill [] :: es)

/-- `ast.CompileAll`: allocate one slot per name up front, compile every
term against the full table, and return the name-to-executable mapping;
any failure rejects the whole batch (Go returns a `nil` map together with
the error, modelled by the `Except.error` case). -/
def CompileAll (gs : List (String × Node α)) :
    Except (CompileError α) (List (String × Expr α)) :=
  let globalNames := gs.map Prod.fst
  let ptrs := mkPtrs globalNames
  match compileLoop ptrs gs with
  | .error e => .error e
  | .ok compiled => .ok (globalNames.zip compiled)

example :
    CompileSingle (Node.Abst "x" (.Var "x" ()) ()) =
      .ok (FreeExpr.Fill (.FreeAbst true (.FreeVar ()) ()) []) := rfl

example :
    CompileSingle (Node.Var "x" () : Node Unit) =
      .error ⟨.Var "x" (), "'x' not defined"⟩ := rfl

example :
    CompileAll [("A", Node.Global "B" ()), ("B", Node.Global "A" ())] =
      .ok [("A", FreeExpr.Fill (.FreeRef 1 ()) []),
           ("B", FreeExpr.Fill (.FreeRef 0 ()) [])] := rfl

/-! ### Helper lemmas about the trim loop -/

theorem dropCount_le (t : Node α) (free : List String) :
    dropCount t free ≤ free.length := by
  induction free with
  | nil => simp [dropCount]
  | cons h rest ih =>
    simp only [dropCount, List.length_cons]
    split
    · omega
    · omega

theorem dropCount_eq_takeWhile (t : Node α) (free : List String) :
    dropCount t free = (free.takeWhile (fun x => !t.HasFree x)).length := by
  induction free with
  | nil => rfl
  | cons h rest ih =>
    by_cases hh : t.HasFree h
    · simp [dropCount, List.takeWhile_cons, hh]
    · simp [dropCount, List.takeWhile_cons, hh, ih]

theorem dropCount_all_not (t : Node α) (free : List String)
    (h : ∀ n ∈ free, t.HasFree n = false) : dropCount t free = free.length := by
  induction free with
  | nil => rfl
  | cons f rest ih =>
    have hf : t.HasFree f = false := h f (List.mem_cons_self f rest)
    simp only [dropCount, hf, List.length_cons, Bool.false_eq_true, if_false]
    exact congrArg (· + 1) (ih fun n hn => h n (List.mem_cons_of_mem f hn))

theorem mem_drop_dropCount (t : Node α) (n : String) (free : List String)
    (hn : t.HasFree n = true) (hmem : n ∈ free) :
    n ∈ free.drop (dropCount t free) := by
  induction free with
  | nil => cases hmem
  | cons h rest ih =>
    by_cases hh : t.HasFree h
    · simpa [dropCount, hh] using hmem
    · have hr : n ∈ rest := by
        rcases List.mem_cons.mp hmem with h1 | h1
        · subst h1; exact absurd hn (by simpa using hh)
        · exact h1
      simpa [dropCount, hh, List.drop_succ_cons] using ih hr

/-- The invariant on the head of the free environment: the node references
the first name of the environment (trivially true for the empty
environment). -/
def HeadRef (t : Node α) : List String → Prop
  | [] => True
  | h :: _ => t.HasFree h = true

theorem headRef_drop (t : Node α) (free : List String) :
    HeadRef t (free.drop (dropCount t free)) := by
  induction free with
  | nil => trivial
  | cons h rest ih =>
    by_cases hh : t.HasFree h
    · simp [dropCount, hh, HeadRef]
    · simpa [dropCount, hh, List.drop_succ_cons] using ih

/-! ### Totality of compilation for global-free terms -/

/-- The node tree contains no `Global` node. -/
def GlobalFree : Node α → Bool
  | .Const _ _ => true
  | .Var _ _ => true
  | .Abst _ body _ => GlobalFree body
  | .Appl l r _ => GlobalFree l && GlobalFree r
  | .Global _ _ => false

theorem compileFree_total (g : List (String × Nat)) :
    ∀ (t : Node α) (free : List String), GlobalFree t = true →
      (∀ n, t.HasFree n = true → n ∈ free) → HeadRef t free →
      ∃ e, t.CompileFree g free = .ok e := by
  intro t
  induction t with
  | Const v m => exact fun free _ _ _ => ⟨v, rfl⟩
  | Var n m =>
    intro free _ hf hh
    have hmem : n ∈ free := hf n (by simp [Node.HasFree])
    cases free with
    | nil => cases hmem
    | cons f rest =>
      have hfn : (f == n) = true := by
        simpa [HeadRef, Node.HasFree] using hh
      have hne : (f != n) = false := by simp [bne, hfn]
      exact ⟨.FreeVar m, by simp [Node.CompileFree, hne]⟩
  | Abst b body m ih =>
    intro free hg hf hh
    have hgb : GlobalFree body = true := by simpa [GlobalFree] using hg
    by_cases hb : body.HasFree b = true
    · obtain ⟨e, he⟩ := ih (b :: free) hgb
        (by
          intro n hn
          by_cases hnb : n = b
          · subst hnb; exact List.mem_cons_self n free
          · refine List.mem_cons_of_mem b (hf n ?_)
            simp [Node.HasFree, bne_iff_ne, hnb, hn])
        hb
      exact ⟨.FreeAbst true e m, by simp [Node.CompileFree, hb, he]⟩
    · obtain ⟨e, he⟩ := ih free hgb
        (by
          intro n hn
          have hnb : n ≠ b := fun h => hb (h ▸ hn)
          exact hf n (by simp [Node.HasFree, bne_iff_ne, hnb, hn]))
        (by
          cases free with
          | nil => trivial
          | cons f rest =>
            have := hh
            simp only [HeadRef, Node.HasFree, Bool.and_eq_true] at this ⊢
            exact this.2)
      exact ⟨.FreeAbst false e m, by simp [Node.CompileFree, hb, he]⟩
  | Appl l r m ihl ihr =>
    intro free hg hf _
    have hgl : GlobalFree l = true := by
      simp only [GlobalFree, Bool.and_eq_true] at hg; exact hg.1
    have hgr : GlobalFree r = true := by
      simp only [GlobalFree, Bool.and_eq_true] at hg; exact hg.2
    obtain ⟨le, hle⟩ := ihl (free.drop (dropCount l free)) hgl
      (fun n hn =>
        mem_drop_dropCount l n free hn
          (hf n (by simp [Node.HasFree, hn])))
      (headRef_drop l free)
    obtain ⟨re, hre⟩ := ihr (free.drop (dropCount r free)) hgr
      (fun n hn =>
        mem_drop_dropCount r n free hn
          (hf n (by simp [Node.HasFree, hn])))
      (headRef_drop r free)
    exact ⟨.FreeAppl (dropCount l free) (dropCount r free) le re m,
      by simp [Node.CompileFree, hle, hre]⟩
  | Global n m =>
    intro free hg
    simp [GlobalFree] at hg

/-- Closedness check of the claim: the term uses only `Const`, `Var`,
`Abst`, `Appl` nodes and every `Var` occurrence is bound by an enclosing
`Abst` (the list collects the binders in scope). -/
def closedNoGlobal : Node α → List String → Bool
  | .Const _ _, _ => true
  | .Var n _, bound => bound.contains n
  | .Abst b body _, bound => closedNoGlobal body (b :: bound)
  | .Appl l r _, bound => closedNoGlobal l bound && closedNoGlobal r bound
  | .Global _ _, _ => false

theorem closedNoGlobal_spec (t : Node α) :
    ∀ bound, closedNoGlobal t bound = true →
      GlobalFree t = true ∧ ∀ n, t.HasFree n = true → n ∈ bound := by
  induction t with
  | Const v m =>
    exact fun bound _ => ⟨rfl, fun n h => by simp [Node.HasFree] at h⟩
  | Var v m =>
    intro bound h
    refine ⟨rfl, fun n hn => ?_⟩
    have hv : v ∈ bound := by simpa [closedNoGlobal] using h
    have : n = v := by simpa [Node.HasFree] using hn
    exact this ▸ hv
  | Abst b body m ih =>
    intro bound h
    obtain ⟨hg, hfv⟩ := ih (b :: bound) (by simpa [closedNoGlobal] using h)
    refine ⟨hg, fun n hn => ?_⟩
    have hn' : n ≠ b ∧ body.HasFree n = true := by
      simpa [Node.HasFree, bne_iff_ne] using hn
    rcases List.mem_cons.mp (hfv n hn'.2) with h1 | h1
    · exact absurd h1 hn'.1
    · exact h1
  | Appl l r m ihl ihr =>
    intro bound h
    have h' : closedNoGlobal l bound = true ∧ closedNoGlobal r bound = true := by
      simpa [closedNoGlobal, Bool.and_eq_true] using h
    obtain ⟨hgl, hfl⟩ := ihl bound h'.1
    obtain ⟨hgr, hfr⟩ := ihr bound h'.2
    refine ⟨by simp [GlobalFree, hgl, hgr], fun n hn => ?_⟩
    rcases Bool.or_eq_true_iff.mp (by simpa [Node.HasFree] using hn) with h1 | h1
    · exact hfl n h1
    · exact hfr n h1
  | Global n m =>
    intro bound h
    simp [closedNoGlobal] at h

/-! ### Helper lemmas about the global slot table and the batch loop -/

theorem lookupPtr_isSome_iff (g : List (String × Nat)) (n : String) :
    (lookupPtr g n).isSome = true ↔ n ∈ g.map Prod.fst := by
  induction g with
  | nil => simp [lookupPtr]
  | cons p rest ih =>
    obtain ⟨k, v⟩ := p
    by_cases hk : (k == n) = true
    · have hkn : k = n := by simpa using hk
      simp [lookupPtr, hk, hkn]
    · have hne : ¬n = k := fun h => hk (by simp [h])
      simp [lookupPtr, hk, ih, hne]

theorem mkPtrsAux_keys (names : List String) :
    ∀ i, (mkPtrsAux names i).map Prod.fst = names := by
  induction names with
  | nil => intro i; rfl
  | cons n rest ih => intro i; simp [mkPtrsAux, ih]

theorem mkPtrs_keys (names : List String) :
    (mkPtrs names).map Prod.fst = names :=
  mkPtrsAux_keys names 0

theorem compileLoop_error_mem (ptrs : List (String × Nat)) :
    ∀ (l : List (String × Node α)) (e : CompileError α),
      compileLoop ptrs l = .error e →
      ∃ p ∈ l, p.2.CompileFree ptrs [] = .error e := by
  intro l
  induction l with
  | nil => intro e h; simp [compileLoop] at h
  | cons p rest ih =>
    intro e h
    obtain ⟨name, node⟩ := p
    simp only [compileLoop] at h
    split at h
    · next heq =>
        cases h
        exact ⟨(name, node), List.mem_cons_self _ _, heq⟩
    · split at h
      · next heq2 =>
          cases h
          obtain ⟨q, hq, hcq⟩ := ih e heq2
          exact ⟨q, List.mem_cons_of_mem _ hq, hcq⟩
      · cases h

theorem compileLoop_ok_all (ptrs : List (String × Nat)) :
    ∀ (l : List (String × Node α)) (es : List (Expr α)),
      compileLoop ptrs l = .ok es →
      ∀ p ∈ l, ∃ x, p.2.CompileFree ptrs [] = .ok x := by
  intro l
  induction l with
  | nil => intro es _ p hp; cases hp
  | cons q rest ih =>
    intro es h p hp
    obtain ⟨name, node⟩ := q
    simp only [compileLoop] at h
    split at h
    · cases h
    · next cf heq =>
        split at h
        · cases h
        · next es' heq2 =>
            rcases List.mem_cons.mp hp with h1 | h1
            · exact ⟨cf, h1 ▸ heq⟩
            · exact ih es' heq2 p h1

theorem CompileAll_error_mem (gs : List (String × Node α))
    (e : CompileError α) (h : CompileAll gs = .error e) :
    ∃ p ∈ gs, p.2.CompileFree (mkPtrs (gs.map Prod.fst)) [] = .error e := by
  simp only [CompileAll] at h
  split at h
  · next heq => cases h; exact compileLoop_error_mem _ gs e heq
  · cases h

theorem CompileAll_ok_all (gs : List (String × Node α))
    (m : List (String × Expr α)) (h : CompileAll gs = .ok m) :
    ∀ p ∈ gs, ∃ x, p.2.CompileFree (mkPtrs (gs.map Prod.fst)) [] = .ok x := by
  simp only [CompileAll] at h
  split at h
  · cases h
  · next es heq => exact compileLoop_ok_all _ gs es heq

/-! ### Spec-side free-variable semantics (for the refinement claim) -/

/-- Spec-side definition, following the spec's words: the names with "an
occurrence ... that is not itself re-bound within the subtree" (a `Global`
node is not an occurrence of a local variable). -/
def freeVarsSpec : Node α → List String
  | .Const _ _ => []
  | .Var n _ => [n]
  | .Abst b body _ => (freeVarsSpec body).filter (fun x => x != b)
  | .Appl l r _ => freeVarsSpec l ++ freeVarsSpec r
  | .Global _ _ => []

theorem hasFree_iff_mem_freeVarsSpec (t : Node α) (n : String) :
    t.HasFree n = true ↔ n ∈ freeVarsSpec t := by
  induction t with
  | Const v m => simp [Node.HasFree, freeVarsSpec]
  | Var v m => simp [Node.HasFree, freeVarsSpec]
  | Abst b body m ih =>
    simp [Node.HasFree, freeVarsSpec, List.mem_filter, ih, bne_iff_ne,
      and_comm]
  | Appl l r m ihl ihr =>
    simp [Node.HasFree, freeVarsSpec, ihl, ihr]
  | Global v m => simp [Node.HasFree, freeVarsSpec]

/-! ### Annotation re-mapping (for the annotation-opacity claim) -/

/-- Re-map every annotation in an intermediate expression. -/
def FreeExpr.mapMeta (f : α → β) : FreeExpr α → FreeExpr β
  | .FreeVar m => .FreeVar (f m)
  | .FreeAbst u b m => .FreeAbst u (b.mapMeta f) (f m)
  | .FreeAppl ld rd l r m => .FreeAppl ld rd (l.mapMeta f) (r.mapMeta f) (f m)
  | .FreeRef c m => .FreeRef c (f m)

/-- Re-map every annotation in a node tree. -/
def Node.mapMeta (f : α → β) : Node α → Node β
  | .Const v m => .Const (v.mapMeta f) (f m)
  | .Var n m => .Var n (f m)
  | .Abst b body m => .Abst b (body.mapMeta f) (f m)
  | .Appl l r m => .Appl (l.mapMeta f) (r.mapMeta f) (f m)
  | .Global n m => .Global n (f m)

/-- Re-map every annotation in a compile error. -/
def CompileError.mapMeta (f : α → β) (e : CompileError α) : CompileError β :=
  ⟨e.node.mapMeta f, e.msg⟩

theorem hasFree_mapMeta (f : α → β) (t : Node α) (n : String) :
    (t.mapMeta f).HasFree n = t.HasFree n := by
  induction t <;> simp [Node.mapMeta, Node.HasFree, *]

theorem dropCount_mapMeta (f : α → β) (t : Node α) (free : List String) :
    dropCount (t.mapMeta f) free = dropCount t free := by
  induction free with
  | nil => rfl
  | cons h rest ih => simp [dropCount, hasFree_mapMeta, ih]

theorem compileFree_mapMeta (f : α → β) (g : List (String × Nat)) :
    ∀ (t : Node α) (free : List String),
      (t.mapMeta f).CompileFree g free =
        match t.CompileFree g free with
        | .ok e => .ok (e.mapMeta f)
        | .error err => .error (err.mapMeta f) := by
  intro t
  induction t with
  | Const v m => intro free; rfl
  | Var n m =>
    intro free
    cases free with
    | nil => rfl
    | cons h rest =>
      simp only [Node.mapMeta, Node.CompileFree]
      by_cases hh : (h != n) = true
      · simp [hh, CompileError.mapMeta, Node.mapMeta]
      · simp only [Bool.not_eq_true] at hh
        simp [hh, FreeExpr.mapMeta]
  | Abst b body m ih =>
    intro free
    simp only [Node.mapMeta, Node.CompileFree, hasFree_mapMeta]
    by_cases hb : body.HasFree b = true
    · simp only [hb, Bool.not_true]
      rw [ih (b :: free)]
      cases body.CompileFree g (b :: free) with
      | error e => simp [CompileError.mapMeta]
      | ok e => simp [FreeExpr.mapMeta]
    · simp only [Bool.not_eq_true] at hb
      simp only [hb, Bool.not_false]
      rw [ih free]
      cases body.CompileFree g free with
      | error e => simp [CompileError.mapMeta]
      | ok e => simp [FreeExpr.mapMeta]
  | Appl l r m ihl ihr =>
    intro free
    simp only [Node.mapMeta, Node.CompileFree, dropCount_mapMeta,
      hasFree_mapMeta]
    rw [ihl, ihr]
    cases l.CompileFree g (free.drop (dropCount l free)) with
    | error e => simp [CompileError.mapMeta]
    | ok le =>
      cases r.CompileFree g (free.drop (dropCount r free)) with
      | error e => simp [CompileError.mapMeta]
      | ok re => simp [FreeExpr.mapMeta]
  | Global n m =>
    intro free
    simp only [Node.mapMeta, Node.CompileFree]
    cases hl : lookupPtr g n with
    | none => simp [CompileError.mapMeta, Node.mapMeta]
    | some cell => simp [FreeExpr.mapMeta]

/-- Annotation of the produced intermediate expression. -/
def FreeExpr.metaOf : FreeExpr α → α
  | .FreeVar m => m
  | .FreeAbst _ _ m => m
  | .FreeAppl _ _ _ _ m => m
  | .FreeRef _ m => m

/-! ### Claims -/

/-- C1: for every closed term built only from `Const`, `Var`, `Abst` and
`Appl` nodes (no `Global` node and no `Var` occurrence unbound by an
enclosing `Abst`), `CompileSingle` returns a compiled expression and no
error. -/
theorem C1_compileSingle_closed_ok (t : Node α)
    (h : closedNoGlobal t [] = true) :
    ∃ e, CompileSingle t = .ok e := by
  obtain ⟨hg, hfv⟩ := closedNoGlobal_spec t [] h
  obtain ⟨e, he⟩ := compileFree_total [] t []
    hg (fun n hn => absurd (hfv n hn) (List.not_mem_nil n)) True.intro
  exact ⟨e.Fill [], by simp [CompileSingle, he]⟩

/-- Witness for C1 at the identity term. -/
theorem C1_witness :
    closedNoGlobal (Node.Abst "x" (.Var "x" ()) ()) [] = true ∧
    ∃ e, CompileSingle (Node.Abst "x" (.Var "x" ()) ()) = .ok e :=
  ⟨rfl, C1_compileSingle_closed_ok (Node.Abst "x" (.Var "x" ()) ()) rfl⟩

/-- C2: compiling a `Var` succeeds iff the free environment is non-empty
and its first element is the variable's name, in which case it produces a
reference to environment position 0; otherwise it fails with a
"not defined" error naming the variable and carrying the node itself. -/
theorem C2_var_compile (n : String) (m : α) (g : List (String × Nat))
    (free : List String) :
    Node.CompileFree (.Var n m) g free =
      (match free with
       | [] => .error ⟨.Var n m, "'" ++ n ++ "' not defined"⟩
       | f :: _ =>
           if f == n then .ok (.FreeVar m)
           else .error ⟨.Var n m, "'" ++ n ++ "' not defined"⟩)
    ∧ ((∃ e, Node.CompileFree (.Var n m) g free = .ok e) ↔
        free.head? = some n) := by
  constructor
  · cases free with
    | nil => rfl
    | cons f rest =>
      by_cases hf : (f == n) = true
      · simp [Node.CompileFree, bne, hf]
      · simp [Node.CompileFree, bne, hf]
  · cases free with
    | nil => simp [Node.CompileFree]
    | cons f rest =>
      by_cases hf : (f == n) = true
      · have hfn : f = n := by simpa using hf
        simp [Node.CompileFree, bne, hf, hfn]
      · have hfn : ¬f = n := fun h => hf (by simp [h])
        simp [Node.CompileFree, bne, hf, hfn]

/-- C3: an `Abst` whose body does not reference the binder compiles the
body with the same free environment and is tagged `Used = false`;
otherwise the body is compiled with the binder prepended and the
abstraction is tagged `Used = true`. -/
theorem C3_abst_compile (b : String) (body : Node α) (m : α)
    (g : List (String × Nat)) (free : List String) :
    Node.CompileFree (.Abst b body m) g free =
      (if body.HasFree b then
        match body.CompileFree g (b :: free) with
        | .error e => .error e
        | .ok e => .ok (.FreeAbst true e m)
      else
        match body.CompileFree g free with
        | .error e => .error e
        | .ok e => .ok (.FreeAbst false e m)) := by
  by_cases hb : body.HasFree b = true
  · simp [Node.CompileFree, hb]
  · simp only [Bool.not_eq_true] at hb
    simp [Node.CompileFree, hb]

/-- C4: in `Appl` compilation `ldrop` counts the leading free names not
referenced by the left subterm (stopping at the first referenced one, the
whole list if none is referenced), `rdrop` likewise for the right; the
subterms are compiled with the corresponding suffixes; and the spec's
example `freeEnv = [x, y, z]`, left referencing only `y`, right only `z`,
gives `ldrop = 1` and `rdrop = 2`. -/
theorem C4_appl_drops (l r : Node α) (m : α) (g : List (String × Nat))
    (free : List String) :
    (Node.CompileFree (.Appl l r m) g free =
      match l.CompileFree g (free.drop (dropCount l free)) with
      | .error e => .error e
      | .ok le =>
          match r.CompileFree g (free.drop (dropCount r free)) with
          | .error e => .error e
          | .ok re =>
              .ok (.FreeAppl (dropCount l free) (dropCount r free) le re m))
    ∧ dropCount l free = (free.takeWhile (fun x => !l.HasFree x)).length
    ∧ dropCount r free = (free.takeWhile (fun x => !r.HasFree x)).length
    ∧ ((∀ n ∈ free, l.HasFree n = false) → dropCount l free = free.length)
    ∧ dropCount (Node.Var "y" () : Node Unit) ["x", "y", "z"] = 1
    ∧ dropCount (Node.Var "z" () : Node Unit) ["x", "y", "z"] = 2 :=
  ⟨rfl, dropCount_eq_takeWhile l free, dropCount_eq_takeWhile r free,
   dropCount_all_not l free, rfl, rfl⟩

/-- Witness for C4: the whole environment is dropped when no name is
referenced. -/
theorem C4_witness :
    dropCount (Node.Var "y" () : Node Unit) ["a"] = 1 :=
  (C4_appl_drops (Node.Var "y" ()) (Node.Var "y" ()) () [] ["a"]).2.2.2.1
    (by decide)

/-- C5: every `Global` whose name is a key of the batch resolves to a slot
cell of the table allocated before any compilation starts; in particular
the mutually recursive pair A ↦ Global "B", B ↦ Global "A" compiles to
executables for both names. -/
theorem C5_mutual_globals (gs : List (String × Node α)) (n : String)
    (m : α) (free : List String) (hmem : n ∈ gs.map Prod.fst) :
    (∃ cell, Node.CompileFree (.Global n m) (mkPtrs (gs.map Prod.fst)) free
        = .ok (.FreeRef cell m))
    ∧ CompileAll [("A", Node.Global "B" ()), ("B", Node.Global "A" ())] =
        .ok [("A", FreeExpr.Fill (.FreeRef 1 ()) []),
             ("B", FreeExpr.Fill (.FreeRef 0 ()) [])] := by
  constructor
  · have hs : (lookupPtr (mkPtrs (gs.map Prod.fst)) n).isSome = true := by
      rw [lookupPtr_isSome_iff, mkPtrs_keys]; exact hmem
    obtain ⟨cell, hc⟩ := Option.isSome_iff_exists.mp hs
    exact ⟨cell, by simp [Node.CompileFree, hc]⟩
  · rfl

/-- Witness for C5 at the mutually recursive pair. -/
theorem C5_witness :
    ∃ cell,
      Node.CompileFree (.Global "A" ())
        (mkPtrs
          (([("A", Node.Global "B" ()), ("B", Node.Global "A" ())]).map
            Prod.fst)) []
        = .ok (.FreeRef cell ()) :=
  (C5_mutual_globals
    [("A", Node.Global "B" ()), ("B", Node.Global "A" ())] "A" () []
    (by decide)).1

/-- C6: if any global's term fails to compile, `CompileAll` returns that
error, which carries the violating node, and no name-to-executable
mapping; the whole batch is rejected as a unit.  (In Go the failing call
returns a `nil` map together with the error; this is the `Except.error`
case.) -/
theorem C6_batch_fail (gs : List (String × Node α)) (e : CompileError α) :
    (CompileAll gs = .error e →
      ∃ p ∈ gs, p.2.CompileFree (mkPtrs (gs.map Prod.fst)) [] = .error e)
    ∧ ((∃ p ∈ gs, ∀ x,
          p.2.CompileFree (mkPtrs (gs.map Prod.fst)) [] ≠ .ok x) →
        ∀ m, CompileAll gs ≠ .ok m)
    ∧ CompileAll [("A", Node.Var "x" ())] =
        .error ⟨.Var "x" (), "'x' not defined"⟩ := by
  refine ⟨CompileAll_error_mem gs e, ?_, rfl⟩
  rintro ⟨p, hp, hfail⟩ m hok
  obtain ⟨x, hx⟩ := CompileAll_ok_all gs m hok p hp
  exact hfail x hx

/-- Witness for C6 at a batch whose single term is an unresolved `Var`. -/
theorem C6_witness :
    ∃ p ∈ ([("A", Node.Var "x" ())] : List (String × Node Unit)),
      p.2.CompileFree
        (mkPtrs (([("A", Node.Var "x" ())]).map Prod.fst)) [] =
          .error ⟨.Var "x" (), "'x' not defined"⟩ :=
  (C6_batch_fail [("A", Node.Var "x" ())]
    ⟨.Var "x" (), "'x' not defined"⟩).1 rfl

/-- C7 counterexample: for a `Const` node the annotation is not propagated
into the produced expression: the compiler returns the wrapped `Value`
unchanged, so the output carries the `Value`'s annotation, not the `Const`
node's. -/
theorem C7_counterexample :
    Node.CompileFree (.Const (.FreeVar 0) 1 : Node Nat) [] [] =
      .ok (.FreeVar 0)
    ∧ FreeExpr.metaOf (.FreeVar 0 : FreeExpr Nat) ≠
        Node.MetaInfo (.Const (.FreeVar 0) 1 : Node Nat) :=
  ⟨rfl, by decide⟩

/-- C7 (amended): for `Var`, `Abst`, `Appl` and `Global` the node's
annotation is propagated unchanged as the produced expression's
annotation; `Const` instead returns its wrapped expression unchanged, the
`Const` node's own annotation not being attached; and the compiler never
inspects or branches on annotations: compiling a re-annotated term
re-annotates the result (errors alike). -/
theorem C7_annotations (f : α → β) (t : Node α) (g : List (String × Nat))
    (free : List String) (b n : String) (m : α) (v : FreeExpr α)
    (body l r : Node α) :
    ((t.mapMeta f).CompileFree g free =
      match t.CompileFree g free with
      | .ok e => .ok (e.mapMeta f)
      | .error err => .error (err.mapMeta f))
    ∧ Node.CompileFree (.Const v m) g free = .ok v
    ∧ (Node.CompileFree (.Var n m) g free).map FreeExpr.metaOf =
        (Node.CompileFree (.Var n m) g free).map (fun _ => m)
    ∧ (Node.CompileFree (.Abst b body m) g free).map FreeExpr.metaOf =
        (Node.CompileFree (.Abst b body m) g free).map (fun _ => m)
    ∧ (Node.CompileFree (.Appl l r m) g free).map FreeExpr.metaOf =
        (Node.CompileFree (.Appl l r m) g free).map (fun _ => m)
    ∧ (Node.CompileFree (.Global n m) g free).map FreeExpr.metaOf =
        (Node.CompileFree (.Global n m) g free).map (fun _ => m) := by
  refine ⟨compileFree_mapMeta f g t free, rfl, ?_, ?_, ?_, ?_⟩
  · cases free with
    | nil => rfl
    | cons h rest =>
      by_cases hh : (h != n) = true
      · simp [Node.CompileFree, hh, Except.map]
      · simp [Node.CompileFree, hh, FreeExpr.metaOf, Except.map]
  · by_cases hb : body.HasFree b = true
    · simp only [Node.CompileFree, hb, Bool.not_true]
      cases body.CompileFree g (b :: free) <;>
        simp [FreeExpr.metaOf, Except.map]
    · simp only [Bool.not_eq_true] at hb
      simp only [Node.CompileFree, hb, Bool.not_false]
      cases body.CompileFree g free <;>
        simp [FreeExpr.metaOf, Except.map]
  · simp only [Node.CompileFree]
    cases l.CompileFree g (free.drop (dropCount l free)) with
    | error e => rfl
    | ok le =>
      cases r.CompileFree g (free.drop (dropCount r free)) <;>
        simp [FreeExpr.metaOf, Except.map]
  · simp only [Node.CompileFree]
    cases lookupPtr g n <;> simp [FreeExpr.metaOf, Except.map]

/-- C8: `HasFree` (the spec's `referencesFree`) holds exactly when the
subtree contains an occurrence of the name not re-bound within it, and
follows the per-variant table: `Const` and `Global` always false, `Var`
name equality, `Abst` shadowing, `Appl` disjunction. -/
theorem C8_hasFree (t : Node α) (n : String) :
    (t.HasFree n = true ↔ n ∈ freeVarsSpec t)
    ∧ (∀ (v : FreeExpr α) (m : α), Node.HasFree (.Const v m) n = false)
    ∧ (∀ (nm : String) (m : α), Node.HasFree (.Global nm m) n = false)
    ∧ (∀ (nm : String) (m : α), Node.HasFree (.Var nm m) n = (n == nm))
    ∧ (∀ (b : String) (body : Node α) (m : α),
        Node.HasFree (.Abst b body m) n = (n != b && body.HasFree n))
    ∧ (∀ (l r : Node α) (m : α),
        Node.HasFree (.Appl l r m) n = (l.HasFree n || r.HasFree n)) :=
  ⟨hasFree_iff_mem_freeVarsSpec t n, fun _ _ => rfl, fun _ _ => rfl,
   fun _ _ => rfl, fun _ _ _ => rfl, fun _ _ _ => rfl⟩

/-- C9: compiling a `Global` succeeds iff its name is a key of the globals
table, producing a reference carrying the slot cell itself; on absence it
fails with a "not defined" error naming the global and carrying the node;
the result never depends on the free environment. -/
theorem C9_global_compile (n : String) (m : α) (g : List (String × Nat))
    (free free' : List String) :
    Node.CompileFree (.Global n m) g free =
      Node.CompileFree (.Global n m) g free'
    ∧ Node.CompileFree (.Global n m) g free =
        (match lookupPtr g n with
         | some cell => .ok (.FreeRef cell m)
         | none => .error ⟨.Global n m, "'" ++ n ++ "' not defined"⟩)
    ∧ ((∃ e, Node.CompileFree (.Global n m) g free = .ok e) ↔
        n ∈ g.map Prod.fst) := by
  refine ⟨rfl, ?_, ?_⟩
  · cases h : lookupPtr g n <;> simp [Node.CompileFree, h]
  · rw [← lookupPtr_isSome_iff]
    cases h : lookupPtr g n <;> simp [Node.CompileFree, h]

/-- C10: the trim counts of `Appl` compilation never exceed the length of
the free environment, so the suffixes passed to the subterm compilations
are always within bounds: the trim loops can at most consume the whole
list. -/
theorem C10_drops_in_bounds (l r : Node α) (free : List String) :
    dropCount l free ≤ free.length
    ∧ dropCount r free ≤ free.length
    ∧ List.IsSuffix (free.drop (dropCount l free)) free
    ∧ List.IsSuffix (free.drop (dropCount r free)) free :=
  ⟨dropCount_le l free, dropCount_le r free,
   List.drop_suffix _ _, List.drop_suffix _ _⟩
